import Mathlib

/-!
Verification of the background task queue of `app/core/queue.py`
(`TaskStatus`, `TaskNotFoundError`, `QueryQueue`).

Modelling conventions of the shallow embedding:
* A Python task record (the dict built in `QueryQueue.add_task`) becomes the
  structure `Task`; the `self._tasks` dict becomes an association list
  `TaskStore` with unique keys, with Python dict semantics for assignment,
  lookup and deletion.
* Timestamps (`datetime.utcnow().isoformat()`) are modelled as natural
  numbers (seconds); ISO-8601 rendering is order preserving, and
  `clear_completed` compares second differences, so nothing is lost.
* A Python value stored in the `result` field is a `PyValue`; Python's
  `None` is the constructor `PyValue.none`, so a task function returning
  `None` is representable (the stored field is then indistinguishable from
  the initial `None`, exactly as in Python).
* `uuid.uuid4()` is modelled as a fresh-identifier supply: the queue state
  carries a counter and the n-th generated identifier is the number n.
  This keeps the generator's guarantee (fresh, never-reused identifiers)
  while making identifiers concrete.
* An exception raised by the task function is a `PyException` value; the
  `except Exception` branch of `_execute_task` turns it into the structured
  `ErrorInfo` record exactly as the source builds `error_details`.
* Each `async with self._lock:` block is one atomic state transformation;
  the interleaving of those blocks across coroutines is modelled by the
  small-step relation `Step` further below.
-/

namespace QueueSpec

/-- Task execution status: the `TaskStatus` enum of `app/core/queue.py`
(`pending`, `running`, `completed`, `failed`). -/
inductive TaskStatus where
  | pending
  | running
  | completed
  | failed
deriving DecidableEq, Repr

/-- A Python value as stored in a record's `result` field. `PyValue.none`
is Python's `None`; the other constructors stand for arbitrary non-`None`
results of a task function. -/
inductive PyValue where
  | none
  | int (n : Int)
  | str (s : String)
deriving DecidableEq, Repr

/-- A Python exception as raised by a task function: its class name
(`type(e).__name__`), its message (`str(e)`) and the traceback text
(`traceback.format_exc()`). -/
structure PyException where
  className : String
  message : String
  trace : String
deriving DecidableEq, Repr

/-- The structured error record stored by `_execute_task` on failure
(`error_details` at lines 145-149 of `queue.py`). -/
structure ErrorInfo where
  error_type : String
  error_message : String
  traceback : String
deriving DecidableEq, Repr

/-- Building `error_details` from the caught exception, as in the
`except Exception as e:` branch of `_execute_task`. -/
def mkErrorDetails (e : PyException) : ErrorInfo :=
  { error_type := e.className, error_message := e.message, traceback := e.trace }

/-- One task record: the dict created at lines 83-92 of `queue.py`. -/
structure Task where
  task_id : Nat
  status : TaskStatus
  result : PyValue
  error : Option ErrorInfo
  created_at : Nat
  started_at : Option Nat
  completed_at : Option Nat
  function_name : String
deriving DecidableEq, Repr

/-- The `self._tasks` dict: an association list from task identifier to
record, kept with unique keys (a Python dict cannot hold a key twice). -/
def TaskStore := List (Nat × Task)

instance : Membership (Nat × Task) TaskStore := inferInstanceAs (Membership _ (List _))

/-- Python `self._tasks[k]` read / `k in self._tasks` test. -/
def lookupTask (s : TaskStore) (k : Nat) : Option Task :=
  (List.find? (fun p => p.1 == k) s).map (fun p => p.2)

/-- Python dict assignment `self._tasks[k] = t`: replaces the record if the
key is present, otherwise appends a new entry. -/
def dictInsert (s : TaskStore) (k : Nat) (t : Task) : TaskStore :=
  if List.any s (fun p => p.1 == k) then
    List.map (fun p => if p.1 = k then (k, t) else p) s
  else
    List.append s [(k, t)]

/-- The guarded in-place mutation pattern of `_execute_task`:
`if task_id in self._tasks: self._tasks[task_id][...] = ...`.
Applies `f` to the record under `k` if present, and silently does nothing
when the key is absent. -/
def dictUpdate (s : TaskStore) (k : Nat) (f : Task → Task) : TaskStore :=
  List.map (fun p => if p.1 = k then (p.1, f p.2) else p) s

/-- Python `del self._tasks[k]`. -/
def dictDelete (s : TaskStore) (k : Nat) : TaskStore :=
  List.filter (fun p => p.1 != k) s

/-- The keys of the store, in insertion order. -/
def storeKeys (s : TaskStore) : List Nat :=
  List.map (fun p => p.1) s

/-! ## Queue operations -/

/-- The record dict created by `add_task` (lines 83-92 of `queue.py`):
status `PENDING`, `result`/`error`/`started_at`/`completed_at` all `None`,
`created_at` stamped with the current time, and the function name label. -/
def initTask (i : Nat) (now : Nat) (name : String) : Task :=
  { task_id := i, status := .pending, result := .none, error := none,
    created_at := now, started_at := none, completed_at := none,
    function_name := name }

/-- How far the background coroutine spawned for one task has progressed:
not yet at the `RUNNING` update, past it, or past the terminal update. -/
inductive Phase where
  | created
  | started
  | finished
deriving DecidableEq

/-- What the awaited task function does when it is finally run: return a
value, or raise an exception. -/
inductive Outcome where
  | ok (v : PyValue)
  | exn (e : PyException)
deriving DecidableEq

/-- The whole queue: the `self._tasks` dict, the fresh-identifier supply
standing in for `uuid.uuid4()`, and the bookkeeping of every spawned
`_execute_task` coroutine (its task id, the eventual outcome of its task
function, and how far it has progressed). -/
structure QueueState where
  tasks : TaskStore
  nextId : Nat
  runs : List (Nat × Outcome × Phase)

/-- `QueryQueue.add_task` (lines 56-98): generate a fresh id, insert the
pending record under the lock, spawn the execution coroutine
(registered in `runs` with phase `created`), and return the id. The task
function is not invoked here; its eventual outcome is merely recorded for
the coroutine to use later. -/
def addTask (q : QueueState) (name : String) (o : Outcome) (now : Nat) :
    QueueState × Nat :=
  (⟨dictInsert q.tasks q.nextId (initTask q.nextId now name), q.nextId + 1,
    List.append q.runs [(q.nextId, o, Phase.created)]⟩, q.nextId)

/-- First locked block of `_execute_task` (lines 124-127): if the id is
still present, set status `RUNNING` and stamp `started_at`. -/
def startTask (s : TaskStore) (i : Nat) (now : Nat) : TaskStore :=
  dictUpdate s i (fun t => { t with status := .running, started_at := some now })

/-- Second locked block of `_execute_task`: on normal return (lines
135-139) store the result, set `COMPLETED` and stamp `completed_at`; in
the `except Exception` branch (lines 143-155) store the structured
`error_details`, set `FAILED` and stamp `completed_at`. Both blocks are
guarded by `if task_id in self._tasks`. -/
def finishTask (s : TaskStore) (i : Nat) (o : Outcome) (now : Nat) : TaskStore :=
  match o with
  | .ok v =>
      dictUpdate s i (fun t =>
        { t with status := .completed, result := v, completed_at := some now })
  | .exn e =>
      dictUpdate s i (fun t =>
        { t with status := .failed, error := some (mkErrorDetails e),
                 completed_at := some now })

/-- The whole of `_execute_task` run to the end: the `RUNNING` update at
time `t1`, then the task function's outcome, then the terminal update at
time `t2`. The function is total: an exception of the task function is
consumed by the `except Exception` branch and never escapes. -/
def executeTask (s : TaskStore) (i : Nat) (o : Outcome) (t1 t2 : Nat) : TaskStore :=
  finishTask (startTask s i t1) i o t2

/-- The exception surface of the queue itself: `TaskNotFoundError`,
raised with the message built from the task id (line 186). -/
inductive QueueError where
  | taskNotFound (i : Nat)
deriving DecidableEq

/-- `QueryQueue.get_task_status` (lines 159-188): raise
`TaskNotFoundError` when the id is absent, else return
`self._tasks[task_id].copy()` (at the value level the copy has the same
content as the stored record; the aliasing side is modelled by
`getTaskStatusRef` below). -/
def getTaskStatus (s : TaskStore) (i : Nat) : Except QueueError Task :=
  match lookupTask s i with
  | none => Except.error (QueueError.taskNotFound i)
  | some t => Except.ok t

/-- The removal condition of `clear_completed` (lines 229-235): status
`COMPLETED` or `FAILED`, a non-`None` `completed_at`, and age strictly
greater than `max_age_seconds`. -/
def shouldRemove (maxAge : Int) (now : Nat) (t : Task) : Bool :=
  (t.status == TaskStatus.completed || t.status == TaskStatus.failed) &&
    (match t.completed_at with
     | some c => decide ((now : Int) - (c : Int) > maxAge)
     | none => false)

/-- `QueryQueue.clear_completed` (lines 211-243): first collect the ids of
the records to remove, then delete them one by one, and return how many
were collected. -/
def clearCompleted (s : TaskStore) (maxAge : Int) (now : Nat) : TaskStore × Nat :=
  let toRemove := List.map (fun p => p.1)
    (List.filter (fun p => shouldRemove maxAge now p.2) s)
  (List.foldl dictDelete s toRemove, toRemove.length)

/-- The statistics dict of `get_queue_stats` (lines 256-262). -/
structure Stats where
  total : Nat
  pending : Nat
  running : Nat
  completed : Nat
  failed : Nat
deriving DecidableEq

/-- One iteration of the counting loop of `get_queue_stats` (lines
264-273): the `if`/`elif` chain on the record's status. -/
def statsStep (acc : Stats) (t : Task) : Stats :=
  match t.status with
  | .pending => { acc with pending := acc.pending + 1 }
  | .running => { acc with running := acc.running + 1 }
  | .completed => { acc with completed := acc.completed + 1 }
  | .failed => { acc with failed := acc.failed + 1 }

/-- `QueryQueue.get_queue_stats` (lines 245-275): `total` is
`len(self._tasks)`, the four counters start at zero, and the loop walks
over the stored records. -/
def getQueueStats (s : TaskStore) : Stats :=
  List.foldl statsStep
    { total := s.length, pending := 0, running := 0, completed := 0, failed := 0 }
    (List.map (fun p => p.2) s)

/-! ## Object-identity model

Python records are mutable dict objects. To talk about aliasing versus
copying, the records live in a heap (`List Task`, address = index) and
the `self._tasks` dict maps ids to addresses. `list(self._tasks.values())`
returns the addresses themselves; `.copy()` allocates a fresh address. -/

/-- Read the dict object at an address. -/
def heapRead (h : List Task) (a : Nat) : Task :=
  List.getD h a (initTask 0 0 "")

/-- Mutate the dict object at an address in place. -/
def heapWrite (h : List Task) (a : Nat) (t : Task) : List Task :=
  List.set h a t

/-- Lookup of the address stored for an id in the by-reference view of
`self._tasks`. -/
def lookupRef (s : List (Nat × Nat)) (i : Nat) : Option Nat :=
  (List.find? (fun p => p.1 == i) s).map (fun p => p.2)

/-- `QueryQueue.list_tasks` (lines 190-209) in the by-reference view:
`tasks = list(self._tasks.values())` collects the dict objects (that is,
their addresses), and the optional status filter reads the status through
each reference. No copy of any record is made. -/
def listTasksRefs (h : List Task) (s : List (Nat × Nat))
    (filt : Option TaskStatus) : List Nat :=
  let tasks := List.map (fun p => p.2) s
  match filt with
  | some f => List.filter (fun a => (heapRead h a).status == f) tasks
  | none => tasks

/-- `QueryQueue.get_task_status` in the by-reference view: the returned
`self._tasks[task_id].copy()` is a freshly allocated dict whose content is
read through the stored reference. -/
def getTaskStatusRef (h : List Task) (s : List (Nat × Nat)) (i : Nat) :
    Except QueueError (List Task × Nat) :=
  match lookupRef s i with
  | none => Except.error (QueueError.taskNotFound i)
  | some a => Except.ok (List.append h [heapRead h a], h.length)


/-! ## Small-step semantics

Every `async with self._lock:` block of `queue.py` is one atomic step;
the event loop interleaves the blocks of different coroutines and the
facade calls arbitrarily. `Step` enumerates the state-changing blocks:
the insertion of `add_task` (which also spawns the coroutine), the two
locked blocks of `_execute_task` (which run once each, in order, for the
spawned coroutine), and the sweep of `clear_completed`. Reads
(`get_task_status`, `list_tasks`, `get_queue_stats`) do not change state. -/

/-- Advance the recorded phase of the coroutine for task `i`. -/
def setPhase (runs : List (Nat × Outcome × Phase)) (i : Nat) (ph : Phase) :
    List (Nat × Outcome × Phase) :=
  List.map (fun r => if r.1 = i then (r.1, r.2.1, ph) else r) runs

/-- The keys of the coroutine bookkeeping list. -/
def runKeys (runs : List (Nat × Outcome × Phase)) : List Nat :=
  List.map (fun r => r.1) runs

inductive Step : QueueState → QueueState → Prop where
  | submit (q : QueueState) (name : String) (o : Outcome) (now : Nat) :
      Step q (addTask q name o now).1
  | start (q : QueueState) (i : Nat) (o : Outcome) (now : Nat)
      (hmem : (i, o, Phase.created) ∈ q.runs) :
      Step q ⟨startTask q.tasks i now, q.nextId, setPhase q.runs i Phase.started⟩
  | finish (q : QueueState) (i : Nat) (o : Outcome) (now : Nat)
      (hmem : (i, o, Phase.started) ∈ q.runs) :
      Step q ⟨finishTask q.tasks i o now, q.nextId, setPhase q.runs i Phase.finished⟩
  | clean (q : QueueState) (maxAge : Int) (now : Nat) :
      Step q ⟨(clearCompleted q.tasks maxAge now).1, q.nextId, q.runs⟩

/-- A freshly constructed `QueryQueue` (its `__init__`): empty dict. -/
def initialQueue : QueueState := ⟨[], 0, []⟩

/-- States the queue can actually be in. -/
def Reachable (q : QueueState) : Prop :=
  Relation.ReflTransGen Step initialQueue q

/-- What the terminal locked block of `_execute_task` has stored, by
outcome of the task function. -/
def FinishedFields : Outcome → Task → Prop
  | .ok v, t => t.status = .completed ∧ t.result = v ∧ t.error = none
  | .exn e, t =>
      t.status = .failed ∧ t.result = .none ∧ t.error = some (mkErrorDetails e)

/-- The relation between a coroutine's progress and the content of its
task's record. -/
def RunStateOK (tasks : TaskStore) : Nat × Outcome × Phase → Prop
  | (i, _, Phase.created) =>
      ∃ t, lookupTask tasks i = some t ∧ t.status = .pending ∧
        t.result = .none ∧ t.error = none ∧
        t.started_at = none ∧ t.completed_at = none
  | (i, _, Phase.started) =>
      ∃ t, lookupTask tasks i = some t ∧ t.status = .running ∧
        t.result = .none ∧ t.error = none ∧
        t.started_at.isSome = true ∧ t.completed_at = none
  | (i, o, Phase.finished) =>
      lookupTask tasks i = none ∨
      ∃ t, lookupTask tasks i = some t ∧ t.started_at.isSome = true ∧
        t.completed_at.isSome = true ∧ FinishedFields o t

/-- The reachability invariant of the queue: unique keys, keys below the
fresh-id counter, one bookkeeping entry per coroutine, every stored record
backed by a coroutine, and every record's content consistent with its
coroutine's progress. -/
structure Inv (q : QueueState) : Prop where
  keys_nodup : (storeKeys q.tasks).Nodup
  keys_lt : ∀ k ∈ storeKeys q.tasks, k < q.nextId
  runs_nodup : (runKeys q.runs).Nodup
  runs_lt : ∀ k ∈ runKeys q.runs, k < q.nextId
  task_has_run : ∀ k ∈ storeKeys q.tasks, k ∈ runKeys q.runs
  run_state : ∀ r ∈ q.runs, RunStateOK q.tasks r

/-- One legal move of the status state machine: stay put, Pending to
Running, or Running to a terminal state. -/
def statusStepOK (a b : TaskStatus) : Bool :=
  a == b ||
  (a == TaskStatus.pending && b == TaskStatus.running) ||
  (a == TaskStatus.running && (b == TaskStatus.completed || b == TaskStatus.failed))

/-- How a record may change across one step: if present before and after,
its status makes a legal move; a record that appears was just created
Pending with empty timestamps; a record may disappear (cleanup). -/
def statusEvolutionOK (before after : Option Task) : Prop :=
  match before, after with
  | some t, some u => statusStepOK t.status u.status = true
  | none, some u => u.status = TaskStatus.pending ∧
      u.started_at = none ∧ u.completed_at = none
  | _, none => True

/-- A record whose `completed_at` is set also has `started_at` set. -/
def timestampsOK (after : Option Task) : Prop :=
  match after with
  | some u => u.completed_at.isSome = true → u.started_at.isSome = true
  | none => True

/-- The per-record guarantee of one queue step, for the record under
identifier `i`. -/
def recordEvolutionOK (q q' : QueueState) (i : Nat) : Prop :=
  statusEvolutionOK (lookupTask q.tasks i) (lookupTask q'.tasks i) ∧
  timestampsOK (lookupTask q'.tasks i)

/-- The removal condition of the cleanup sweep, worded as the
specification does: a Completed or Failed record whose `completed_at` is
older than `max_age_seconds` relative to the current time. -/
def RemovalDue (maxAge : Int) (now : Nat) (t : Task) : Prop :=
  (t.status = TaskStatus.completed ∨ t.status = TaskStatus.failed) ∧
  ∃ c, t.completed_at = some c ∧ (now : Int) - (c : Int) > maxAge

/-- Property P4 of the specification: exactly one of `result` and `error`
is non-null. -/
def exactlyOneOutcome (t : Task) : Prop :=
  (t.result ≠ PyValue.none ∧ t.error = none) ∨
  (t.result = PyValue.none ∧ t.error ≠ none)

/-- Number of tasks in a list with the given status. -/
def countT (l : List Task) (st : TaskStatus) : Nat :=
  (List.filter (fun t => t.status == st) l).length

/-- Number of records in the store with the given status. -/
def countStatus (s : TaskStore) (st : TaskStatus) : Nat :=
  (List.filter (fun p => p.2.status == st) s).length

/-- A back-to-back sequence of `add_task` calls (each request carries the
label, the eventual outcome of its task function, and the submission
time), together with the list of identifiers returned. -/
def submitMany (q : QueueState) (reqs : List (String × Outcome × Nat)) :
    QueueState × List Nat :=
  match reqs with
  | [] => (q, [])
  | r :: rest =>
      let first := addTask q r.1 r.2.1 r.2.2
      let next := submitMany first.1 rest
      (next.1, first.2 :: next.2)

/-- What `get_task_status` must do for identifier `i` on store `s`:
raise `TaskNotFoundError` built from the id exactly when the id is
absent, and return the record's content otherwise. -/
def getStatusOK (s : TaskStore) (i : Nat) : Prop :=
  match lookupTask s i, getTaskStatus s i with
  | none, Except.error e => e = QueueError.taskNotFound i
  | some t, Except.ok u => u = t
  | _, _ => False

/-! ## Concrete states used in witnesses and counterexamples -/

/-- Queue after one submission (task function returning `None`) at
time 10. -/
def wq1 : QueueState := (addTask initialQueue "job" (Outcome.ok PyValue.none) 10).1

/-- Queue after the coroutine's `RUNNING` update at time 20. -/
def wq2 : QueueState :=
  ⟨startTask wq1.tasks 0 20, wq1.nextId, setPhase wq1.runs 0 Phase.started⟩

/-- Queue after the terminal update at time 30: the task function
returned `None`, so the record completed with a `None` result. -/
def wq3 : QueueState :=
  ⟨finishTask wq2.tasks 0 (Outcome.ok PyValue.none) 30, wq2.nextId,
    setPhase wq2.runs 0 Phase.finished⟩

/-- The record held for task 0 in `wq3`. -/
def wRec3 : Task :=
  { task_id := 0, status := TaskStatus.completed, result := PyValue.none,
    error := none, created_at := 10, started_at := some 20,
    completed_at := some 30, function_name := "job" }

/-- A store holding one freshly created record under id 0. -/
def exStore1 : TaskStore := [(0, initTask 0 5 "job")]

/-- A pending record object. -/
def cexRec : Task := initTask 0 5 "job"

/-- A heap with one record object at address 0. -/
def cexHeap : List Task := [cexRec]

/-- A by-reference store mapping id 0 to address 0. -/
def cexRefStore : List (Nat × Nat) := [(0, 0)]

/-- The record after a caller mutates it through an alias. -/
def cexMut : Task := { cexRec with status := TaskStatus.failed }

/-- Two distinct records for the duplicate-insert counterexample. -/
def cexTaskA : Task := initTask 5 1 "a"

/-- A second record, different from `cexTaskA`, for the same key. -/
def cexTaskB : Task := initTask 5 2 "b"

/-- A record completed long ago (at time 0). -/
def wOldRec : Task :=
  { initTask 0 0 "old" with status := TaskStatus.completed, completed_at := some 0 }

/-- A record completed recently (at time 90). -/
def wNewRec : Task :=
  { initTask 1 0 "new" with status := TaskStatus.completed, completed_at := some 90 }

/-- A record still running (started at time 0). -/
def wRunRec : Task :=
  { initTask 2 0 "run" with status := TaskStatus.running, started_at := some 0 }

/-- A store with one old completed record, one recent completed record
and one running record, for the cleanup witness. -/
def wStoreClean : TaskStore :=
  [(0, wOldRec), (1, wNewRec), (2, wRunRec)]

/-! ## Properties -/

theorem lookupTask_nil (k : Nat) : lookupTask [] k = none := rfl

theorem lookupTask_cons (p : Nat × Task) (s : List (Nat × Task)) (k : Nat) :
    lookupTask (p :: s) k = if p.1 = k then some p.2 else lookupTask s k := by
  by_cases h : p.1 = k
  · have hb : (p.1 == k) = true := by simpa using h
    simp [lookupTask, List.find?, hb, h]
  · have hb : (p.1 == k) = false := by simpa using h
    simp [lookupTask, List.find?, hb, h]

theorem lookupTask_eq_none_iff (s : TaskStore) (k : Nat) :
    lookupTask s k = none ↔ k ∉ storeKeys s := by
  induction s with
  | nil => simp [lookupTask_nil, storeKeys]
  | cons p s ih =>
      rw [lookupTask_cons]
      by_cases h : p.1 = k
      · simp [h, storeKeys]
      · simpa [storeKeys, h, Ne.symm h] using ih

theorem lookupTask_mem (s : TaskStore) (k : Nat) (t : Task)
    (h : lookupTask s k = some t) : (k, t) ∈ s := by
  induction s with
  | nil => simp [lookupTask_nil] at h
  | cons p s ih =>
      rcases p with ⟨a, b⟩
      rw [lookupTask_cons] at h
      by_cases hp : a = k
      · simp only [hp, if_pos rfl] at h
        have hb : b = t := by simpa using h
        subst hp
        subst hb
        exact List.mem_cons_self _ _
      · simp only [if_neg hp] at h
        exact List.mem_cons_of_mem _ (ih h)

theorem mem_storeKeys_of_lookup (s : TaskStore) (k : Nat) (t : Task)
    (h : lookupTask s k = some t) : k ∈ storeKeys s := by
  have := lookupTask_mem s k t h
  exact List.mem_map.mpr ⟨(k, t), this, rfl⟩

theorem lookupTask_isSome_of_mem (s : TaskStore) (k : Nat)
    (h : k ∈ storeKeys s) : ∃ t, lookupTask s k = some t := by
  cases hl : lookupTask s k with
  | none => exact absurd h ((lookupTask_eq_none_iff s k).mp hl)
  | some t => exact ⟨t, rfl⟩

theorem any_key_eq_iff (s : TaskStore) (k : Nat) :
    List.any s (fun p => p.1 == k) = true ↔ k ∈ storeKeys s := by
  rw [List.any_eq_true]
  constructor
  · rintro ⟨p, hp, hpk⟩
    exact List.mem_map.mpr ⟨p, hp, by simpa using hpk⟩
  · intro h
    rcases List.mem_map.mp h with ⟨p, hp, hpk⟩
    exact ⟨p, hp, by simpa using hpk⟩

theorem lookupTask_append (s s2 : TaskStore) (k : Nat) :
    lookupTask (List.append s s2) k =
      match lookupTask s k with
      | some t => some t
      | none => lookupTask s2 k := by
  induction s with
  | nil => rfl
  | cons p s ih =>
      have hstep : List.append (p :: s) s2 = p :: List.append s s2 := rfl
      rw [hstep, lookupTask_cons, lookupTask_cons]
      by_cases h : p.1 = k
      · rw [if_pos h, if_pos h]
      · rw [if_neg h, if_neg h, ih]

theorem lookupTask_mapReplace_self (s : TaskStore) (k : Nat) (t : Task)
    (h : k ∈ storeKeys s) :
    lookupTask (List.map (fun p => if p.1 = k then (k, t) else p) s) k = some t := by
  induction s with
  | nil => exact absurd h (by simp [storeKeys])
  | cons p s ih =>
      by_cases hp : p.1 = k
      · simp only [List.map_cons, if_pos hp]
        rw [lookupTask_cons]
        simp
      · simp only [List.map_cons, if_neg hp]
        rw [lookupTask_cons, if_neg hp]
        apply ih
        have hmem : k = p.1 ∨ k ∈ storeKeys s := List.mem_cons.mp h
        rcases hmem with h1 | h2
        · exact absurd h1.symm hp
        · exact h2

theorem lookupTask_mapReplace_ne (s : TaskStore) (k : Nat) (t : Task) (j : Nat)
    (hjk : j ≠ k) :
    lookupTask (List.map (fun p => if p.1 = k then (k, t) else p) s) j =
      lookupTask s j := by
  induction s with
  | nil => rfl
  | cons p s ih =>
      by_cases hp : p.1 = k
      · simp only [List.map_cons, if_pos hp]
        rw [lookupTask_cons, lookupTask_cons]
        rw [if_neg (by simpa using fun h => hjk h.symm)]
        rw [if_neg (fun h => hjk (hp ▸ h).symm)]
        exact ih
      · simp only [List.map_cons, if_neg hp]
        rw [lookupTask_cons, lookupTask_cons, ih]

theorem lookupTask_dictInsert_self (s : TaskStore) (k : Nat) (t : Task) :
    lookupTask (dictInsert s k t) k = some t := by
  unfold dictInsert
  by_cases h : List.any s (fun p => p.1 == k) = true
  · rw [if_pos h]
    exact lookupTask_mapReplace_self s k t ((any_key_eq_iff s k).mp h)
  · rw [if_neg h]
    rw [lookupTask_append]
    have hnone : lookupTask s k = none := by
      rw [lookupTask_eq_none_iff]
      intro hmem
      exact h ((any_key_eq_iff s k).mpr hmem)
    rw [hnone]
    rw [lookupTask_cons]
    simp

theorem lookupTask_dictInsert_ne (s : TaskStore) (k : Nat) (t : Task) (j : Nat)
    (hjk : j ≠ k) :
    lookupTask (dictInsert s k t) j = lookupTask s j := by
  unfold dictInsert
  by_cases h : List.any s (fun p => p.1 == k) = true
  · rw [if_pos h]
    exact lookupTask_mapReplace_ne s k t j hjk
  · rw [if_neg h, lookupTask_append]
    cases hl : lookupTask s j with
    | some u => rfl
    | none =>
        rw [lookupTask_cons]
        rw [if_neg (by simpa using fun h2 => hjk h2.symm)]
        rfl

theorem dictInsert_fresh (s : TaskStore) (k : Nat) (t : Task)
    (h : k ∉ storeKeys s) : dictInsert s k t = List.append s [(k, t)] := by
  unfold dictInsert
  rw [if_neg (fun h2 => h ((any_key_eq_iff s k).mp h2))]

theorem lookupTask_dictUpdate_self (s : TaskStore) (k : Nat) (f : Task → Task) :
    lookupTask (dictUpdate s k f) k = Option.map f (lookupTask s k) := by
  induction s with
  | nil => rfl
  | cons p s ih =>
      unfold dictUpdate
      rw [List.map_cons]
      by_cases hp : p.1 = k
      · rw [if_pos hp]
        rw [lookupTask_cons, lookupTask_cons]
        simp [hp]
      · rw [if_neg hp]
        rw [lookupTask_cons, lookupTask_cons, if_neg hp, if_neg hp]
        exact ih

theorem lookupTask_dictUpdate_ne (s : TaskStore) (k : Nat) (f : Task → Task)
    (j : Nat) (hjk : j ≠ k) :
    lookupTask (dictUpdate s k f) j = lookupTask s j := by
  induction s with
  | nil => rfl
  | cons p s ih =>
      unfold dictUpdate
      rw [List.map_cons]
      by_cases hp : p.1 = k
      · rw [if_pos hp]
        rw [lookupTask_cons, lookupTask_cons]
        have hpj : ¬ p.1 = j := fun h2 => hjk (hp ▸ h2 ▸ rfl)
        simp only [if_neg hpj]
        exact ih
      · rw [if_neg hp]
        rw [lookupTask_cons, lookupTask_cons]
        by_cases hj : p.1 = j
        · rw [if_pos hj, if_pos hj]
        · rw [if_neg hj, if_neg hj]
          exact ih

theorem storeKeys_dictUpdate (s : TaskStore) (k : Nat) (f : Task → Task) :
    storeKeys (dictUpdate s k f) = storeKeys s := by
  induction s with
  | nil => rfl
  | cons p s ih =>
      unfold dictUpdate at *
      rw [List.map_cons]
      by_cases hp : p.1 = k
      · rw [if_pos hp]
        have : storeKeys ((p.1, f p.2) :: List.map (fun p => if p.1 = k then (p.1, f p.2) else p) s)
            = p.1 :: storeKeys (List.map (fun p => if p.1 = k then (p.1, f p.2) else p) s) := rfl
        rw [this, ih]
        rfl
      · rw [if_neg hp]
        have : storeKeys (p :: List.map (fun p => if p.1 = k then (p.1, f p.2) else p) s)
            = p.1 :: storeKeys (List.map (fun p => if p.1 = k then (p.1, f p.2) else p) s) := rfl
        rw [this, ih]
        rfl

theorem dictUpdate_absent (s : TaskStore) (k : Nat) (f : Task → Task)
    (h : lookupTask s k = none) : dictUpdate s k f = s := by
  have hmem : k ∉ storeKeys s := (lookupTask_eq_none_iff s k).mp h
  induction s with
  | nil => rfl
  | cons p s ih =>
      have hp : p.1 ≠ k := by
        intro h2
        exact hmem (h2 ▸ List.mem_cons_self _ _)
      unfold dictUpdate at *
      rw [List.map_cons, if_neg hp]
      have htail : lookupTask s k = none := by
        rw [lookupTask_cons] at h
        rwa [if_neg hp] at h
      have hmemtail : k ∉ storeKeys s := (lookupTask_eq_none_iff s k).mp htail
      rw [ih htail hmemtail]

/-- In a keyed list with no repeated key, two entries with the same key
are the same entry. -/
theorem keyedEntry_eq {α : Type} (s : List (Nat × α))
    (hnd : (List.map (fun p => p.1) s).Nodup)
    (p q : Nat × α) (hp : p ∈ s) (hq : q ∈ s) (hk : p.1 = q.1) : p = q := by
  induction s with
  | nil => exact (List.not_mem_nil p hp).elim
  | cons r s ih =>
      have hcons : r.1 ∉ List.map (fun p => p.1) s ∧
          (List.map (fun p => p.1) s).Nodup := by
        have h2 : (r.1 :: List.map (fun p => p.1) s).Nodup := hnd
        exact List.nodup_cons.mp h2
      rcases List.mem_cons.mp hp with hp1 | hp2
      · rcases List.mem_cons.mp hq with hq1 | hq2
        · rw [hp1, hq1]
        · subst hp1
          exact absurd (hk ▸ List.mem_map.mpr ⟨q, hq2, rfl⟩) hcons.1
      · rcases List.mem_cons.mp hq with hq1 | hq2
        · subst hq1
          exact absurd (hk ▸ List.mem_map.mpr ⟨p, hp2, rfl⟩) hcons.1
        · exact ih hcons.2 hp2 hq2

/-- In a store with no repeated key, two entries with the same key are the
same entry. -/
theorem entry_eq_of_keys_nodup (s : TaskStore) (hnd : (storeKeys s).Nodup)
    (p q : Nat × Task) (hp : p ∈ s) (hq : q ∈ s) (hk : p.1 = q.1) : p = q :=
  keyedEntry_eq s hnd p q hp hq hk

theorem storeKeys_append (s s2 : TaskStore) :
    storeKeys (List.append s s2) = storeKeys s ++ storeKeys s2 := by
  unfold storeKeys
  exact List.map_append _ s s2

theorem storeKeys_filter_sublist (s : TaskStore) (g : Nat × Task → Bool) :
    (storeKeys (List.filter g s)).Sublist (storeKeys s) :=
  List.Sublist.map _ (List.filter_sublist s)

theorem foldl_dictDelete (ks : List Nat) (s : TaskStore) :
    List.foldl dictDelete s ks =
      List.filter (fun p => !(List.contains ks p.1)) s := by
  induction ks generalizing s with
  | nil =>
      simp only [List.foldl_nil]
      have : ∀ p ∈ s, (!(List.contains ([] : List Nat) p.1)) = true := by
        intro p _
        rfl
      rw [List.filter_eq_self.mpr this]
  | cons a ks ih =>
      rw [List.foldl_cons, ih]
      unfold dictDelete
      rw [List.filter_filter]
      apply List.filter_congr
      intro p _
      show ((!(List.contains ks p.1)) && (p.1 != a)) = (!(List.contains (a :: ks) p.1))
      rw [List.contains_cons]
      cases h1 : p.1 == a <;> cases h2 : List.contains ks p.1 <;>
        simp only [bne, h1, h2] <;> rfl

/-- Lookup in a filtered store with unique keys: the record survives the
filter exactly when it satisfies the predicate. -/
theorem lookupTask_filter (s : TaskStore) (g : Nat × Task → Bool) (k : Nat)
    (hnd : (storeKeys s).Nodup) :
    lookupTask (List.filter g s) k =
      match lookupTask s k with
      | none => none
      | some t => if g (k, t) then some t else none := by
  induction s with
  | nil => rfl
  | cons p s ih =>
      have hcons : p.1 ∉ storeKeys s ∧ (storeKeys s).Nodup := by
        have h2 : (p.1 :: storeKeys s).Nodup := hnd
        exact List.nodup_cons.mp h2
      rcases p with ⟨a, t0⟩
      by_cases hp : a = k
      · subst hp
        cases hg : g (a, t0) with
        | true =>
            rw [List.filter_cons_of_pos (by simpa using hg)]
            rw [lookupTask_cons, lookupTask_cons]
            simp [hg]
        | false =>
            rw [List.filter_cons_of_neg (by simpa using hg)]
            have hnone : lookupTask (List.filter g s) a = none := by
              rw [lookupTask_eq_none_iff]
              intro hmem
              exact hcons.1 ((storeKeys_filter_sublist s g).subset hmem)
            rw [hnone, lookupTask_cons]
            simp [hg]
      · cases hg : g (a, t0) with
        | true =>
            rw [List.filter_cons_of_pos (by simpa using hg)]
            simp only [lookupTask_cons, if_neg hp]
            exact ih hcons.2
        | false =>
            rw [List.filter_cons_of_neg (by simpa using hg)]
            simp only [lookupTask_cons, if_neg hp]
            exact ih hcons.2

theorem RunStateOK_congr (t1 t2 : TaskStore) (r : Nat × Outcome × Phase)
    (h : lookupTask t2 r.1 = lookupTask t1 r.1)
    (hok : RunStateOK t1 r) : RunStateOK t2 r := by
  rcases r with ⟨i, o, ph⟩
  cases ph <;> simp only [RunStateOK] at hok ⊢ <;> rw [show lookupTask t2 i = lookupTask t1 i from h] <;> exact hok

theorem runKeys_append (runs runs2 : List (Nat × Outcome × Phase)) :
    runKeys (List.append runs runs2) = runKeys runs ++ runKeys runs2 := by
  unfold runKeys
  exact List.map_append _ runs runs2

theorem runKeys_setPhase (runs : List (Nat × Outcome × Phase)) (i : Nat)
    (ph : Phase) : runKeys (setPhase runs i ph) = runKeys runs := by
  induction runs with
  | nil => rfl
  | cons r rs ih =>
      unfold setPhase at *
      rw [List.map_cons]
      by_cases hr : r.1 = i
      · rw [if_pos hr]
        show r.1 :: runKeys (List.map _ rs) = r.1 :: runKeys rs
        rw [ih]
      · rw [if_neg hr]
        show r.1 :: runKeys (List.map _ rs) = r.1 :: runKeys rs
        rw [ih]

theorem mem_setPhase (runs : List (Nat × Outcome × Phase)) (i : Nat)
    (ph : Phase) (r' : Nat × Outcome × Phase) (h : r' ∈ setPhase runs i ph) :
    ∃ r ∈ runs, r' = if r.1 = i then (r.1, r.2.1, ph) else r := by
  rcases List.mem_map.mp h with ⟨r, hr, hr'⟩
  exact ⟨r, hr, hr'.symm⟩

theorem inv_initial : Inv initialQueue := by
  constructor <;> first
    | exact List.nodup_nil
    | (intro k h; exact absurd h (List.not_mem_nil k))

theorem inv_submit (q : QueueState) (name : String) (o : Outcome) (now : Nat)
    (hinv : Inv q) : Inv (addTask q name o now).1 := by
  have hfresh : q.nextId ∉ storeKeys q.tasks := fun h =>
    Nat.lt_irrefl _ (hinv.keys_lt _ h)
  have hfreshr : q.nextId ∉ runKeys q.runs := fun h =>
    Nat.lt_irrefl _ (hinv.runs_lt _ h)
  have htasks : (addTask q name o now).1.tasks =
      List.append q.tasks [(q.nextId, initTask q.nextId now name)] :=
    dictInsert_fresh _ _ _ hfresh
  have hkeys : storeKeys (addTask q name o now).1.tasks =
      storeKeys q.tasks ++ [q.nextId] := by
    rw [htasks, storeKeys_append]
    rfl
  have hruns : (addTask q name o now).1.runs =
      List.append q.runs [(q.nextId, o, Phase.created)] := rfl
  have hrkeys : runKeys (addTask q name o now).1.runs =
      runKeys q.runs ++ [q.nextId] := by
    rw [hruns, runKeys_append]
    rfl
  have hnext : (addTask q name o now).1.nextId = q.nextId + 1 := rfl
  constructor
  · rw [hkeys]
    exact List.Nodup.append hinv.keys_nodup (List.nodup_singleton _)
      (by simpa [List.disjoint_singleton] using hfresh)
  · intro k hk
    rw [hnext]
    rw [hkeys] at hk
    rcases List.mem_append.mp hk with h1 | h2
    · exact Nat.lt_succ_of_lt (hinv.keys_lt _ h1)
    · have : k = q.nextId := by simpa using h2
      rw [this]
      exact Nat.lt_succ_self _
  · rw [hrkeys]
    exact List.Nodup.append hinv.runs_nodup (List.nodup_singleton _)
      (by simpa [List.disjoint_singleton] using hfreshr)
  · intro k hk
    rw [hnext]
    rw [hrkeys] at hk
    rcases List.mem_append.mp hk with h1 | h2
    · exact Nat.lt_succ_of_lt (hinv.runs_lt _ h1)
    · have : k = q.nextId := by simpa using h2
      rw [this]
      exact Nat.lt_succ_self _
  · intro k hk
    rw [hrkeys]
    rw [hkeys] at hk
    rcases List.mem_append.mp hk with h1 | h2
    · exact List.mem_append.mpr (Or.inl (hinv.task_has_run _ h1))
    · exact List.mem_append.mpr (Or.inr h2)
  · intro r hr
    rw [hruns] at hr
    rcases List.mem_append.mp hr with h1 | h2
    · apply RunStateOK_congr q.tasks _ r _ (hinv.run_state r h1)
      show lookupTask (addTask q name o now).1.tasks r.1 = lookupTask q.tasks r.1
      apply lookupTask_dictInsert_ne
      intro heq
      exact Nat.lt_irrefl _ (heq ▸ hinv.runs_lt _ (List.mem_map.mpr ⟨r, h1, rfl⟩))
    · have hr2 : r = (q.nextId, o, Phase.created) := by simpa using h2
      rw [hr2]
      show RunStateOK (addTask q name o now).1.tasks (q.nextId, o, Phase.created)
      refine ⟨initTask q.nextId now name, ?_, rfl, rfl, rfl, rfl, rfl⟩
      exact lookupTask_dictInsert_self _ _ _

theorem contains_iff_mem (l : List Nat) (a : Nat) :
    List.contains l a = true ↔ a ∈ l := by
  induction l with
  | nil => simp [List.contains]
  | cons b l ih =>
      rw [List.contains_cons]
      simp only [Bool.or_eq_true, beq_iff_eq, List.mem_cons, ih]

/-- The two-phase sweep of `clear_completed` (collect, then delete one by
one) keeps exactly the records that do not meet the removal condition. -/
theorem clearCompleted_fst_eq_filter (s : TaskStore) (maxAge : Int) (now : Nat)
    (hnd : (storeKeys s).Nodup) :
    (clearCompleted s maxAge now).1 =
      List.filter (fun p => !(shouldRemove maxAge now p.2)) s := by
  show List.foldl dictDelete s
      (List.map (fun p => p.1) (List.filter (fun p => shouldRemove maxAge now p.2) s)) = _
  rw [foldl_dictDelete]
  apply List.filter_congr
  intro p hp
  show (!(List.contains _ p.1)) = (!(shouldRemove maxAge now p.2))
  congr 1
  cases hs : shouldRemove maxAge now p.2 with
  | true =>
      apply (contains_iff_mem _ _).mpr
      exact List.mem_map.mpr ⟨p, List.mem_filter.mpr ⟨hp, hs⟩, rfl⟩
  | false =>
      cases hc : List.contains
          (List.map (fun p => p.1)
            (List.filter (fun p => shouldRemove maxAge now p.2) s)) p.1 with
      | false => rfl
      | true =>
          exfalso
          rcases List.mem_map.mp ((contains_iff_mem _ _).mp hc) with ⟨q0, hq0, hq0k⟩
          have hq0' := List.mem_filter.mp hq0
          have heqp : q0 = p := keyedEntry_eq s hnd q0 p hq0'.1 hp hq0k
          rw [heqp] at hq0'
          exact absurd hq0'.2 (by simp [hs])

/-- The count returned by `clear_completed` is the number of records that
meet the removal condition. -/
theorem clearCompleted_snd_eq (s : TaskStore) (maxAge : Int) (now : Nat) :
    (clearCompleted s maxAge now).2 =
      (List.filter (fun p => shouldRemove maxAge now p.2) s).length := by
  show (List.map (fun p => p.1)
      (List.filter (fun p => shouldRemove maxAge now p.2) s)).length =
    (List.filter (fun p => shouldRemove maxAge now p.2) s).length
  rw [List.length_map]

theorem inv_start (q : QueueState) (i : Nat) (o : Outcome) (now : Nat)
    (hinv : Inv q) (hmem : (i, o, Phase.created) ∈ q.runs) :
    Inv ⟨startTask q.tasks i now, q.nextId, setPhase q.runs i Phase.started⟩ := by
  have hkeys : storeKeys (startTask q.tasks i now) = storeKeys q.tasks :=
    storeKeys_dictUpdate _ _ _
  have hrkeys : runKeys (setPhase q.runs i Phase.started) = runKeys q.runs :=
    runKeys_setPhase _ _ _
  constructor
  · show (storeKeys (startTask q.tasks i now)).Nodup
    rw [hkeys]
    exact hinv.keys_nodup
  · intro k hk
    rw [show storeKeys (startTask q.tasks i now) = storeKeys q.tasks from hkeys] at hk
    exact hinv.keys_lt k hk
  · show (runKeys (setPhase q.runs i Phase.started)).Nodup
    rw [hrkeys]
    exact hinv.runs_nodup
  · intro k hk
    rw [show runKeys (setPhase q.runs i Phase.started) = runKeys q.runs from hrkeys] at hk
    exact hinv.runs_lt k hk
  · intro k hk
    rw [show storeKeys (startTask q.tasks i now) = storeKeys q.tasks from hkeys] at hk
    rw [show runKeys (setPhase q.runs i Phase.started) = runKeys q.runs from hrkeys]
    exact hinv.task_has_run k hk
  · intro r' hr'
    rcases mem_setPhase _ _ _ _ hr' with ⟨r, hr, hform⟩
    by_cases hri : r.1 = i
    · have hreq : r = (i, o, Phase.created) :=
        keyedEntry_eq q.runs hinv.runs_nodup r (i, o, Phase.created) hr hmem hri
      rcases hinv.run_state _ hmem with ⟨t, hlk, hst, hres, herr, hsa, hca⟩
      have hform' : r' = (i, o, Phase.started) := by
        rw [hreq] at hform
        simpa using hform
      rw [hform']
      show RunStateOK (startTask q.tasks i now) (i, o, Phase.started)
      refine ⟨{ t with status := .running, started_at := some now }, ?_, rfl,
        hres, herr, rfl, hca⟩
      show lookupTask (dictUpdate q.tasks i _) i = _
      rw [lookupTask_dictUpdate_self, hlk]
      rfl
    · have hform' : r' = r := by rw [hform, if_neg hri]
      rw [hform']
      apply RunStateOK_congr q.tasks _ r _ (hinv.run_state r hr)
      show lookupTask (startTask q.tasks i now) r.1 = lookupTask q.tasks r.1
      exact lookupTask_dictUpdate_ne _ _ _ _ hri

theorem inv_finish (q : QueueState) (i : Nat) (o : Outcome) (now : Nat)
    (hinv : Inv q) (hmem : (i, o, Phase.started) ∈ q.runs) :
    Inv ⟨finishTask q.tasks i o now, q.nextId, setPhase q.runs i Phase.finished⟩ := by
  have hkeys : storeKeys (finishTask q.tasks i o now) = storeKeys q.tasks := by
    cases o with
    | ok v =>
        simp only [finishTask]
        exact storeKeys_dictUpdate _ _ _
    | exn e =>
        simp only [finishTask]
        exact storeKeys_dictUpdate _ _ _
  have hrkeys : runKeys (setPhase q.runs i Phase.finished) = runKeys q.runs :=
    runKeys_setPhase _ _ _
  constructor
  · show (storeKeys (finishTask q.tasks i o now)).Nodup
    rw [hkeys]
    exact hinv.keys_nodup
  · intro k hk
    rw [show storeKeys (finishTask q.tasks i o now) = storeKeys q.tasks from hkeys] at hk
    exact hinv.keys_lt k hk
  · show (runKeys (setPhase q.runs i Phase.finished)).Nodup
    rw [hrkeys]
    exact hinv.runs_nodup
  · intro k hk
    rw [show runKeys (setPhase q.runs i Phase.finished) = runKeys q.runs from hrkeys] at hk
    exact hinv.runs_lt k hk
  · intro k hk
    rw [show storeKeys (finishTask q.tasks i o now) = storeKeys q.tasks from hkeys] at hk
    rw [show runKeys (setPhase q.runs i Phase.finished) = runKeys q.runs from hrkeys]
    exact hinv.task_has_run k hk
  · intro r' hr'
    rcases mem_setPhase _ _ _ _ hr' with ⟨r, hr, hform⟩
    by_cases hri : r.1 = i
    · have hreq : r = (i, o, Phase.started) :=
        keyedEntry_eq q.runs hinv.runs_nodup r (i, o, Phase.started) hr hmem hri
      rcases hinv.run_state _ hmem with ⟨t, hlk, hst, hres, herr, hsa, hca⟩
      have hform' : r' = (i, o, Phase.finished) := by
        rw [hreq] at hform
        simpa using hform
      rw [hform']
      show RunStateOK (finishTask q.tasks i o now) (i, o, Phase.finished)
      cases o with
      | ok v =>
          have hlk2 : lookupTask (finishTask q.tasks i (Outcome.ok v) now) i =
              some { t with
                     status := TaskStatus.completed,
                     result := v,
                     completed_at := some now } := by
            simp only [finishTask]
            rw [lookupTask_dictUpdate_self, hlk]
            rfl
          exact Or.inr ⟨_, hlk2, hsa, rfl, rfl, rfl, herr⟩
      | exn e =>
          have hlk2 : lookupTask (finishTask q.tasks i (Outcome.exn e) now) i =
              some { t with
                     status := TaskStatus.failed,
                     error := some (mkErrorDetails e),
                     completed_at := some now } := by
            simp only [finishTask]
            rw [lookupTask_dictUpdate_self, hlk]
            rfl
          exact Or.inr ⟨_, hlk2, hsa, rfl, rfl, hres, rfl⟩
    · have hform' : r' = r := by rw [hform, if_neg hri]
      rw [hform']
      apply RunStateOK_congr q.tasks _ r _ (hinv.run_state r hr)
      show lookupTask (finishTask q.tasks i o now) r.1 = lookupTask q.tasks r.1
      cases o with
      | ok v =>
          simp only [finishTask]
          exact lookupTask_dictUpdate_ne _ _ _ _ hri
      | exn e =>
          simp only [finishTask]
          exact lookupTask_dictUpdate_ne _ _ _ _ hri

theorem inv_clean (q : QueueState) (maxAge : Int) (now : Nat) (hinv : Inv q) :
    Inv ⟨(clearCompleted q.tasks maxAge now).1, q.nextId, q.runs⟩ := by
  have hfil := clearCompleted_fst_eq_filter q.tasks maxAge now hinv.keys_nodup
  constructor
  · show (storeKeys (clearCompleted q.tasks maxAge now).1).Nodup
    rw [hfil]
    exact List.Nodup.sublist (storeKeys_filter_sublist _ _) hinv.keys_nodup
  · intro k hk
    rw [show (clearCompleted q.tasks maxAge now).1 =
      List.filter (fun p => !(shouldRemove maxAge now p.2)) q.tasks from hfil] at hk
    exact hinv.keys_lt k ((storeKeys_filter_sublist _ _).subset hk)
  · exact hinv.runs_nodup
  · exact hinv.runs_lt
  · intro k hk
    rw [show (clearCompleted q.tasks maxAge now).1 =
      List.filter (fun p => !(shouldRemove maxAge now p.2)) q.tasks from hfil] at hk
    exact hinv.task_has_run k ((storeKeys_filter_sublist _ _).subset hk)
  · intro r hr
    have hok := hinv.run_state r hr
    show RunStateOK (clearCompleted q.tasks maxAge now).1 r
    rw [hfil]
    rcases r with ⟨i, o, ph⟩
    have hl := lookupTask_filter q.tasks
      (fun p => !(shouldRemove maxAge now p.2)) i hinv.keys_nodup
    cases ph with
    | created =>
        rcases hok with ⟨t, hlk, hst, hres, herr, hsa, hca⟩
        refine ⟨t, ?_, hst, hres, herr, hsa, hca⟩
        rw [hl, hlk]
        have hsr : shouldRemove maxAge now t = false := by
          unfold shouldRemove
          rw [hst]
          rfl
        simp [hsr]
    | started =>
        rcases hok with ⟨t, hlk, hst, hres, herr, hsa, hca⟩
        refine ⟨t, ?_, hst, hres, herr, hsa, hca⟩
        rw [hl, hlk]
        have hsr : shouldRemove maxAge now t = false := by
          unfold shouldRemove
          rw [hst]
          rfl
        simp [hsr]
    | finished =>
        rcases hok with hnone | ⟨t, hlk, hsa, hca, hff⟩
        · left
          rw [hl, hnone]
        · cases hkeep : shouldRemove maxAge now t with
          | false =>
              right
              refine ⟨t, ?_, hsa, hca, hff⟩
              rw [hl, hlk]
              simp [hkeep]
          | true =>
              left
              rw [hl, hlk]
              simp [hkeep]

theorem inv_step (q q' : QueueState) (hinv : Inv q) (hst : Step q q') : Inv q' := by
  cases hst with
  | submit name o now => exact inv_submit q name o now hinv
  | start i o now hmem => exact inv_start q i o now hinv hmem
  | finish i o now hmem => exact inv_finish q i o now hinv hmem
  | clean maxAge now => exact inv_clean q maxAge now hinv

theorem inv_reachable (q : QueueState) (hr : Reachable q) : Inv q := by
  have hr' : Relation.ReflTransGen Step initialQueue q := hr
  induction hr' with
  | refl => exact inv_initial
  | tail hab hbc ih => exact inv_step _ _ (ih hab) hbc

/-! ## Further helper lemmas -/

theorem statusStepOK_refl (a : TaskStatus) : statusStepOK a a = true := by
  cases a <;> rfl

theorem statusEvolutionOK_refl (x : Option Task) : statusEvolutionOK x x := by
  cases x with
  | none => exact trivial
  | some t => exact statusStepOK_refl t.status

/-- The Boolean removal test of the code decides exactly the removal
condition of the specification. -/
theorem shouldRemove_iff (maxAge : Int) (now : Nat) (t : Task) :
    shouldRemove maxAge now t = true ↔ RemovalDue maxAge now t := by
  unfold shouldRemove RemovalDue
  cases hca : t.completed_at with
  | none => simp [hca]
  | some c => simp [hca]

/-- Field consistency of any record in a reachable store, read off the
invariant: `error` is set exactly on Failed, a non-null `result` occurs
only on Completed, `result` and `error` are never both set, a stamped
`completed_at` implies a stamped `started_at`, and terminal records have
`completed_at` stamped. -/
theorem record_fields_of_inv (q : QueueState) (hinv : Inv q) (i : Nat)
    (t : Task) (h : lookupTask q.tasks i = some t) :
    (t.error.isSome = true ↔ t.status = TaskStatus.failed) ∧
    (t.result ≠ PyValue.none → t.status = TaskStatus.completed) ∧
    (t.status = TaskStatus.failed → t.result = PyValue.none ∧ t.error.isSome = true) ∧
    (t.completed_at.isSome = true → t.started_at.isSome = true) ∧
    ((t.status = TaskStatus.completed ∨ t.status = TaskStatus.failed) →
      t.completed_at.isSome = true) := by
  have hkm : i ∈ storeKeys q.tasks := mem_storeKeys_of_lookup _ _ _ h
  have hrk : i ∈ runKeys q.runs := hinv.task_has_run i hkm
  rcases List.mem_map.mp hrk with ⟨r, hr, hrk1⟩
  have hok := hinv.run_state r hr
  rcases r with ⟨j, o, ph⟩
  have hj : j = i := hrk1
  subst hj
  cases ph with
  | created =>
      rcases hok with ⟨t0, hlk, hst, hres, herr, hsa, hca⟩
      have ht : t0 = t := by
        rw [hlk] at h
        exact Option.some.inj h
      subst ht
      refine ⟨?_, ?_, ?_, ?_, ?_⟩ <;> simp [hst, hres, herr, hca]
  | started =>
      rcases hok with ⟨t0, hlk, hst, hres, herr, hsa, hca⟩
      have ht : t0 = t := by
        rw [hlk] at h
        exact Option.some.inj h
      subst ht
      refine ⟨?_, ?_, ?_, ?_, ?_⟩ <;> simp [hst, hres, herr, hca]
  | finished =>
      rcases hok with hnone | ⟨t0, hlk, hsa, hca, hff⟩
      · rw [h] at hnone
        exact Option.noConfusion hnone
      · have ht : t0 = t := by
          rw [hlk] at h
          exact Option.some.inj h
        subst ht
        cases o with
        | ok v =>
            rcases hff with ⟨hst, hres, herr⟩
            refine ⟨?_, ?_, ?_, ?_, ?_⟩ <;> simp [hst, herr, hsa, hca]
        | exn e =>
            rcases hff with ⟨hst, hres, herr⟩
            refine ⟨?_, ?_, ?_, ?_, ?_⟩ <;> simp [hst, hres, herr, hsa, hca]

theorem lookupRef_cons (p : Nat × Nat) (rs : List (Nat × Nat)) (i : Nat) :
    lookupRef (p :: rs) i = if p.1 = i then some p.2 else lookupRef rs i := by
  by_cases h : p.1 = i
  · have hb : (p.1 == i) = true := by simpa using h
    simp [lookupRef, List.find?, hb, h]
  · have hb : (p.1 == i) = false := by simpa using h
    simp [lookupRef, List.find?, hb, h]

theorem lookupRef_mem (rs : List (Nat × Nat)) (i a : Nat)
    (h : lookupRef rs i = some a) : a ∈ List.map (fun p => p.2) rs := by
  induction rs with
  | nil => exact Option.noConfusion h
  | cons p rs ih =>
      rw [lookupRef_cons] at h
      by_cases hp : p.1 = i
      · rw [if_pos hp] at h
        rw [List.map_cons]
        exact (Option.some.inj h) ▸ List.mem_cons_self _ _
      · rw [if_neg hp] at h
        rw [List.map_cons]
        exact List.mem_cons_of_mem _ (ih h)

/-- In-place mutation through a valid address is visible at that
address. -/
theorem heapRead_heapWrite_self (h : List Task) (a : Nat) (t : Task)
    (ha : a < h.length) : heapRead (heapWrite h a t) a = t := by
  unfold heapRead heapWrite
  induction h generalizing a with
  | nil => exact absurd ha (Nat.not_lt_zero a)
  | cons x h ih =>
      cases a with
      | zero => rfl
      | succ n => exact ih n (Nat.lt_of_succ_lt_succ ha)

/-- Complete description of the counting fold of `get_queue_stats`. -/
theorem foldl_statsStep (l : List Task) (acc : Stats) :
    List.foldl statsStep acc l =
      { total := acc.total,
        pending := acc.pending + countT l TaskStatus.pending,
        running := acc.running + countT l TaskStatus.running,
        completed := acc.completed + countT l TaskStatus.completed,
        failed := acc.failed + countT l TaskStatus.failed } := by
  induction l generalizing acc with
  | nil => rfl
  | cons t l ih =>
      rw [List.foldl_cons, ih]
      cases hst : t.status with
      | pending =>
          have hacc : statsStep acc t =
              { acc with pending := acc.pending + 1 } := by
            simp [statsStep, hst]
          rw [hacc]
          unfold countT
          rw [List.filter_cons_of_pos (by simp [hst]),
            List.filter_cons_of_neg (by simp [hst]),
            List.filter_cons_of_neg (by simp [hst]),
            List.filter_cons_of_neg (by simp [hst])]
          simp [List.length_cons]
          omega
      | running =>
          have hacc : statsStep acc t =
              { acc with running := acc.running + 1 } := by
            simp [statsStep, hst]
          rw [hacc]
          unfold countT
          rw [List.filter_cons_of_neg (by simp [hst]),
            List.filter_cons_of_pos (by simp [hst]),
            List.filter_cons_of_neg (by simp [hst]),
            List.filter_cons_of_neg (by simp [hst])]
          simp [List.length_cons]
          omega
      | completed =>
          have hacc : statsStep acc t =
              { acc with completed := acc.completed + 1 } := by
            simp [statsStep, hst]
          rw [hacc]
          unfold countT
          rw [List.filter_cons_of_neg (by simp [hst]),
            List.filter_cons_of_neg (by simp [hst]),
            List.filter_cons_of_pos (by simp [hst]),
            List.filter_cons_of_neg (by simp [hst])]
          simp [List.length_cons]
          omega
      | failed =>
          have hacc : statsStep acc t =
              { acc with failed := acc.failed + 1 } := by
            simp [statsStep, hst]
          rw [hacc]
          unfold countT
          rw [List.filter_cons_of_neg (by simp [hst]),
            List.filter_cons_of_neg (by simp [hst]),
            List.filter_cons_of_neg (by simp [hst]),
            List.filter_cons_of_pos (by simp [hst])]
          simp [List.length_cons]
          omega

theorem countT_map_snd (s : TaskStore) (st : TaskStatus) :
    countT (List.map (fun p => p.2) s) st = countStatus s st := by
  unfold countT countStatus
  induction s with
  | nil => rfl
  | cons p s ih =>
      rw [List.map_cons]
      cases hc : (p.2.status == st) with
      | true => simp [List.filter_cons, hc, ih]
      | false => simp [List.filter_cons, hc, ih]

theorem countStatus_partition (s : TaskStore) :
    countStatus s TaskStatus.pending + countStatus s TaskStatus.running +
      countStatus s TaskStatus.completed + countStatus s TaskStatus.failed =
      s.length := by
  unfold countStatus
  induction s with
  | nil => rfl
  | cons p s ih =>
      cases hst : p.2.status with
      | pending =>
          rw [List.filter_cons_of_pos (by simp [hst]),
            List.filter_cons_of_neg (by simp [hst]),
            List.filter_cons_of_neg (by simp [hst]),
            List.filter_cons_of_neg (by simp [hst])]
          simp only [List.length_cons]
          omega
      | running =>
          rw [List.filter_cons_of_neg (by simp [hst]),
            List.filter_cons_of_pos (by simp [hst]),
            List.filter_cons_of_neg (by simp [hst]),
            List.filter_cons_of_neg (by simp [hst])]
          simp only [List.length_cons]
          omega
      | completed =>
          rw [List.filter_cons_of_neg (by simp [hst]),
            List.filter_cons_of_neg (by simp [hst]),
            List.filter_cons_of_pos (by simp [hst]),
            List.filter_cons_of_neg (by simp [hst])]
          simp only [List.length_cons]
          omega
      | failed =>
          rw [List.filter_cons_of_neg (by simp [hst]),
            List.filter_cons_of_neg (by simp [hst]),
            List.filter_cons_of_neg (by simp [hst]),
            List.filter_cons_of_pos (by simp [hst])]
          simp only [List.length_cons]
          omega

theorem submitMany_ids_ge (q : QueueState) (reqs : List (String × Outcome × Nat)) :
    ∀ j ∈ (submitMany q reqs).2, q.nextId ≤ j := by
  induction reqs generalizing q with
  | nil =>
      intro j hj
      exact absurd hj (List.not_mem_nil j)
  | cons r rest ih =>
      intro j hj
      have heq : (submitMany q (r :: rest)).2 =
          q.nextId :: (submitMany (addTask q r.1 r.2.1 r.2.2).1 rest).2 := rfl
      rw [heq] at hj
      rcases List.mem_cons.mp hj with h1 | h2
      · exact h1 ▸ Nat.le_refl _
      · have hge := ih (addTask q r.1 r.2.1 r.2.2).1 j h2
        exact Nat.le_of_succ_le hge

theorem submitMany_ids_nodup (q : QueueState)
    (reqs : List (String × Outcome × Nat)) : (submitMany q reqs).2.Nodup := by
  induction reqs generalizing q with
  | nil => exact List.nodup_nil
  | cons r rest ih =>
      have heq : (submitMany q (r :: rest)).2 =
          q.nextId :: (submitMany (addTask q r.1 r.2.1 r.2.2).1 rest).2 := rfl
      rw [heq]
      refine List.nodup_cons.mpr ⟨?_, ih _⟩
      intro hmem
      have hge := submitMany_ids_ge (addTask q r.1 r.2.1 r.2.2).1 rest q.nextId hmem
      exact absurd hge (Nat.not_le.mpr (Nat.lt_succ_self _))

theorem wq1_reachable : Reachable wq1 :=
  Relation.ReflTransGen.tail Relation.ReflTransGen.refl
    (Step.submit initialQueue "job" (Outcome.ok PyValue.none) 10)

theorem wq1_step_wq2 : Step wq1 wq2 :=
  Step.start wq1 0 (Outcome.ok PyValue.none) 20 (by decide)

theorem wq2_reachable : Reachable wq2 :=
  Relation.ReflTransGen.tail wq1_reachable wq1_step_wq2

theorem wq2_step_wq3 : Step wq2 wq3 :=
  Step.finish wq2 0 (Outcome.ok PyValue.none) 30 (by decide)

theorem wq3_reachable : Reachable wq3 :=
  Relation.ReflTransGen.tail wq2_reachable wq2_step_wq3

/-! ## Claim theorems -/

/-- C1: `_execute_task` never propagates a task-function exception to its
caller (in the embedding it is the total function `executeTask`, whose
very type returns a store for every outcome); when the task function
raises, the record's status is set to failed, its `error` field is set to
the structured record with `error_type` the exception's class name,
`error_message` the exception's message and `traceback` the full trace,
and `completed_at` is stamped. -/
theorem execute_task_captures_failure (s : TaskStore) (i : Nat) (t : Task)
    (e : PyException) (t1 t2 : Nat) (h : lookupTask s i = some t) :
    lookupTask (executeTask s i (Outcome.exn e) t1 t2) i =
      some { t with
             status := TaskStatus.failed
             error := some { error_type := e.className
                             error_message := e.message
                             traceback := e.trace }
             started_at := some t1
             completed_at := some t2 } := by
  have hstart : lookupTask (startTask s i t1) i =
      some { t with status := TaskStatus.running, started_at := some t1 } := by
    show lookupTask (dictUpdate s i _) i = _
    rw [lookupTask_dictUpdate_self, h]
    rfl
  show lookupTask (finishTask (startTask s i t1) i (Outcome.exn e) t2) i = _
  simp only [finishTask]
  rw [lookupTask_dictUpdate_self, hstart]
  rfl

/-- Witness for C1 at a concrete store, task and exception. -/
theorem execute_task_captures_failure_witness :
    lookupTask exStore1 0 = some (initTask 0 5 "job") ∧
    lookupTask
        (executeTask exStore1 0
          (Outcome.exn { className := "ValueError", message := "bad input", trace := "tb" })
          6 7) 0 =
      some { initTask 0 5 "job" with
             status := TaskStatus.failed
             error := some { error_type := "ValueError"
                             error_message := "bad input"
                             traceback := "tb" }
             started_at := some 6
             completed_at := some 7 } :=
  ⟨rfl, execute_task_captures_failure exStore1 0 (initTask 0 5 "job")
    { className := "ValueError", message := "bad input", trace := "tb" } 6 7 rfl⟩

/-- C5 counterexample: the insertion used by `add_task` is a Python dict
assignment; inserting under an identifier already present silently
replaces the old record and signals nothing (the operation is total and
returns normally), rather than failing as the claim states. -/
theorem insert_duplicate_silently_replaces :
    cexTaskA ≠ cexTaskB ∧
    dictInsert [(5, cexTaskA)] 5 cexTaskB = [(5, cexTaskB)] ∧
    lookupTask (dictInsert [(5, cexTaskA)] 5 cexTaskB) 5 = some cexTaskB := by
  refine ⟨by decide, rfl, rfl⟩

/-- C5 amended: inserting under an existing identifier silently replaces
the record (see the counterexample); no precondition violation is
signalled anywhere. Duplicates are avoided only because `add_task`
inserts under a freshly generated identifier: in every reachable state
the generated id is absent from the store, so the insertion is a pure
extension and replaces nothing. -/
theorem add_task_insert_is_fresh (q : QueueState) (t : Task)
    (hr : Reachable q) :
    q.nextId ∉ storeKeys q.tasks ∧
    dictInsert q.tasks q.nextId t = List.append q.tasks [(q.nextId, t)] := by
  have hinv := inv_reachable q hr
  have hfresh : q.nextId ∉ storeKeys q.tasks := fun hm =>
    Nat.lt_irrefl _ (hinv.keys_lt _ hm)
  exact ⟨hfresh, dictInsert_fresh _ _ _ hfresh⟩

/-- Witness for the amended C5 at a concrete reachable state. -/
theorem add_task_insert_is_fresh_witness :
    Reachable wq1 ∧
    (wq1.nextId ∉ storeKeys wq1.tasks ∧
      dictInsert wq1.tasks wq1.nextId cexTaskA =
        List.append wq1.tasks [(wq1.nextId, cexTaskA)]) :=
  ⟨wq1_reachable, add_task_insert_is_fresh wq1 cexTaskA wq1_reachable⟩

/-- C8: every status/result/error/timestamp transition performed by the
runner (`_execute_task`) is guarded by `if task_id in self._tasks` and
silently no-ops when the identifier is absent: the store is returned
unchanged and no error is raised. -/
theorem runner_updates_noop_when_absent (s : TaskStore) (i : Nat)
    (o : Outcome) (t1 t2 : Nat) (h : lookupTask s i = none) :
    startTask s i t1 = s ∧ finishTask s i o t2 = s ∧
      executeTask s i o t1 t2 = s := by
  have h1 : startTask s i t1 = s := dictUpdate_absent s i _ h
  have h2 : finishTask s i o t2 = s := by
    cases o with
    | ok v =>
        simp only [finishTask]
        exact dictUpdate_absent s i _ h
    | exn e =>
        simp only [finishTask]
        exact dictUpdate_absent s i _ h
  refine ⟨h1, h2, ?_⟩
  show finishTask (startTask s i t1) i o t2 = s
  rw [h1]
  exact h2

/-- Witness for C8: the runner's transitions for an id absent from a
concrete store leave it unchanged. -/
theorem runner_updates_noop_when_absent_witness :
    lookupTask exStore1 5 = none ∧
    (startTask exStore1 5 1 = exStore1 ∧
      finishTask exStore1 5 (Outcome.ok (PyValue.int 3)) 2 = exStore1 ∧
      executeTask exStore1 5 (Outcome.ok (PyValue.int 3)) 1 2 = exStore1) :=
  ⟨rfl, runner_updates_noop_when_absent exStore1 5 (Outcome.ok (PyValue.int 3)) 1 2 rfl⟩

/-- C9: `add_task` returns the freshly generated identifier and inserts
under it a record with status Pending, null `result`/`error`/
`started_at`/`completed_at`, `created_at` stamped at submission time and
the function's name; the stored record and the returned id do not depend
on the task function's eventual outcome, and the spawned coroutine is
still in its created phase (the operation has not been invoked); and the
identifiers returned by any sequence of `add_task` calls are pairwise
distinct. -/
theorem add_task_spec (q : QueueState) (name : String) (o o2 : Outcome)
    (now : Nat) (reqs : List (String × Outcome × Nat)) :
    (addTask q name o now).2 = q.nextId ∧
    lookupTask (addTask q name o now).1.tasks q.nextId =
      some { task_id := q.nextId
             status := TaskStatus.pending
             result := PyValue.none
             error := none
             created_at := now
             started_at := none
             completed_at := none
             function_name := name } ∧
    (addTask q name o now).1.tasks = (addTask q name o2 now).1.tasks ∧
    (addTask q name o now).1.runs =
      List.append q.runs [(q.nextId, o, Phase.created)] ∧
    (submitMany q reqs).2.Nodup := by
  refine ⟨rfl, ?_, rfl, rfl, submitMany_ids_nodup q reqs⟩
  show lookupTask (dictInsert q.tasks q.nextId (initTask q.nextId now name))
    q.nextId = _
  rw [lookupTask_dictInsert_self]
  rfl

/-- C10: the statistics of `get_queue_stats` are internally consistent on
every store: `total` is the number of records, each per-status counter is
the number of records with that status, and the four counters sum to
`total`. -/
theorem queue_stats_consistent (s : TaskStore) :
    (getQueueStats s).total = s.length ∧
    (getQueueStats s).pending = countStatus s TaskStatus.pending ∧
    (getQueueStats s).running = countStatus s TaskStatus.running ∧
    (getQueueStats s).completed = countStatus s TaskStatus.completed ∧
    (getQueueStats s).failed = countStatus s TaskStatus.failed ∧
    (getQueueStats s).pending + (getQueueStats s).running +
      (getQueueStats s).completed + (getQueueStats s).failed =
      (getQueueStats s).total := by
  have hgs : getQueueStats s =
      { total := s.length
        pending := countStatus s TaskStatus.pending
        running := countStatus s TaskStatus.running
        completed := countStatus s TaskStatus.completed
        failed := countStatus s TaskStatus.failed } := by
    unfold getQueueStats
    rw [foldl_statsStep]
    simp [countT_map_snd]
  rw [hgs]
  exact ⟨rfl, rfl, rfl, rfl, rfl, countStatus_partition s⟩

/-- C2: across every step of the queue from a reachable state, the record
under any identifier follows the state machine
Pending to Running to (Completed or Failed): a record that appears was
just created Pending with empty timestamps, a present record's status
either stays or advances one legal edge (in particular no step leaves
Completed or Failed), and any record whose `completed_at` is stamped also
has `started_at` stamped. -/
theorem task_status_state_machine (q q' : QueueState) (i : Nat)
    (hr : Reachable q) (hst : Step q q') : recordEvolutionOK q q' i := by
  have hinv := inv_reachable q hr
  have hinv' := inv_step q q' hinv hst
  constructor
  · cases hst with
    | submit name o now =>
        by_cases hi : i = q.nextId
        · rw [hi]
          have hnone : lookupTask q.tasks q.nextId = none := by
            rw [lookupTask_eq_none_iff]
            intro hm
            exact Nat.lt_irrefl _ (hinv.keys_lt _ hm)
          have hsome : lookupTask (addTask q name o now).1.tasks q.nextId =
              some (initTask q.nextId now name) :=
            lookupTask_dictInsert_self _ _ _
          show statusEvolutionOK (lookupTask q.tasks q.nextId)
            (lookupTask (addTask q name o now).1.tasks q.nextId)
          rw [hnone, hsome]
          exact ⟨rfl, rfl, rfl⟩
        · have heq : lookupTask (addTask q name o now).1.tasks i =
              lookupTask q.tasks i := lookupTask_dictInsert_ne _ _ _ _ hi
          show statusEvolutionOK (lookupTask q.tasks i)
            (lookupTask (addTask q name o now).1.tasks i)
          rw [heq]
          exact statusEvolutionOK_refl _
    | start j o now hmem =>
        by_cases hi : i = j
        · rw [hi]
          rcases hinv.run_state _ hmem with ⟨t, hlk, hst2, hres, herr, hsa, hca⟩
          have hsome : lookupTask (startTask q.tasks j now) j =
              some { t with status := TaskStatus.running, started_at := some now } := by
            show lookupTask (dictUpdate q.tasks j _) j = _
            rw [lookupTask_dictUpdate_self, hlk]
            rfl
          show statusEvolutionOK (lookupTask q.tasks j)
            (lookupTask (startTask q.tasks j now) j)
          rw [hlk, hsome]
          show statusStepOK t.status TaskStatus.running = true
          rw [hst2]
          rfl
        · have heq : lookupTask (startTask q.tasks j now) i =
              lookupTask q.tasks i := lookupTask_dictUpdate_ne _ _ _ _ hi
          show statusEvolutionOK (lookupTask q.tasks i)
            (lookupTask (startTask q.tasks j now) i)
          rw [heq]
          exact statusEvolutionOK_refl _
    | finish j o now hmem =>
        by_cases hi : i = j
        · rw [hi]
          rcases hinv.run_state _ hmem with ⟨t, hlk, hst2, hres, herr, hsa, hca⟩
          show statusEvolutionOK (lookupTask q.tasks j)
            (lookupTask (finishTask q.tasks j o now) j)
          cases o with
          | ok v =>
              have hsome : lookupTask (finishTask q.tasks j (Outcome.ok v) now) j =
                  some { t with
                         status := TaskStatus.completed
                         result := v
                         completed_at := some now } := by
                simp only [finishTask]
                rw [lookupTask_dictUpdate_self, hlk]
                rfl
              rw [hlk, hsome]
              show statusStepOK t.status TaskStatus.completed = true
              rw [hst2]
              rfl
          | exn e =>
              have hsome : lookupTask (finishTask q.tasks j (Outcome.exn e) now) j =
                  some { t with
                         status := TaskStatus.failed
                         error := some (mkErrorDetails e)
                         completed_at := some now } := by
                simp only [finishTask]
                rw [lookupTask_dictUpdate_self, hlk]
                rfl
              rw [hlk, hsome]
              show statusStepOK t.status TaskStatus.failed = true
              rw [hst2]
              rfl
        · have heq : lookupTask (finishTask q.tasks j o now) i =
              lookupTask q.tasks i := by
            cases o with
            | ok v =>
                simp only [finishTask]
                exact lookupTask_dictUpdate_ne _ _ _ _ hi
            | exn e =>
                simp only [finishTask]
                exact lookupTask_dictUpdate_ne _ _ _ _ hi
          show statusEvolutionOK (lookupTask q.tasks i)
            (lookupTask (finishTask q.tasks j o now) i)
          rw [heq]
          exact statusEvolutionOK_refl _
    | clean maxAge now =>
        have hfil := clearCompleted_fst_eq_filter q.tasks maxAge now hinv.keys_nodup
        have hl := lookupTask_filter q.tasks
          (fun p => !(shouldRemove maxAge now p.2)) i hinv.keys_nodup
        show statusEvolutionOK (lookupTask q.tasks i)
          (lookupTask (clearCompleted q.tasks maxAge now).1 i)
        cases hlq : lookupTask q.tasks i with
        | none =>
            have h3 : lookupTask (clearCompleted q.tasks maxAge now).1 i = none := by
              rw [hfil, hl, hlq]
            rw [h3]
            exact trivial
        | some t =>
            cases hkeep : shouldRemove maxAge now t with
            | false =>
                have h3 : lookupTask (clearCompleted q.tasks maxAge now).1 i = some t := by
                  rw [hfil, hl, hlq]
                  simp [hkeep]
                rw [h3]
                exact statusStepOK_refl t.status
            | true =>
                have h3 : lookupTask (clearCompleted q.tasks maxAge now).1 i = none := by
                  rw [hfil, hl, hlq]
                  simp [hkeep]
                rw [h3]
                exact trivial
  · show timestampsOK (lookupTask q'.tasks i)
    cases hl2 : lookupTask q'.tasks i with
    | none => exact trivial
    | some u =>
        intro hca
        exact (record_fields_of_inv q' hinv' i u hl2).2.2.2.1 hca

/-- Witness for C2 on a concrete reachable step (the terminal update of a
submitted job). -/
theorem task_status_state_machine_witness :
    Reachable wq2 ∧ Step wq2 wq3 ∧ recordEvolutionOK wq2 wq3 0 :=
  ⟨wq2_reachable, wq2_step_wq3,
    task_status_state_machine wq2 wq3 0 wq2_reachable wq2_step_wq3⟩

/-- C3 counterexample: a reachable run whose task function returned
Python `None`: the final record is Completed with `result = None` and
`error = None`, so "result non-null XOR error non-null" fails for this
completed job. -/
theorem completed_task_with_null_result :
    Reachable wq3 ∧
    lookupTask wq3.tasks 0 = some wRec3 ∧
    (wRec3.status = TaskStatus.completed ∨ wRec3.status = TaskStatus.failed) ∧
    ¬ exactlyOneOutcome wRec3 := by
  refine ⟨wq3_reachable, rfl, Or.inl rfl, ?_⟩
  intro hx
  rcases hx with ⟨h1, _⟩ | ⟨_, h2⟩
  · exact h1 rfl
  · exact h2 rfl

/-- C3 amended: in every reachable state, a record's `error` is set iff
its status is Failed, a non-null `result` occurs only with status
Completed, `result` and `error` are never both non-null, and every Failed
record has exactly one outcome field set. (For a Completed record the XOR
holds exactly when the operation returned a non-null value; an operation
returning null leaves both fields null, see the counterexample.) -/
theorem outcome_fields_consistent (q : QueueState) (i : Nat) (t : Task)
    (hr : Reachable q) (h : lookupTask q.tasks i = some t) :
    (t.error.isSome = true ↔ t.status = TaskStatus.failed) ∧
    (t.result ≠ PyValue.none → t.status = TaskStatus.completed) ∧
    ¬(t.result ≠ PyValue.none ∧ t.error.isSome = true) ∧
    (t.status = TaskStatus.failed → exactlyOneOutcome t) := by
  have hinv := inv_reachable q hr
  have hf := record_fields_of_inv q hinv i t h
  refine ⟨hf.1, hf.2.1, ?_, ?_⟩
  · rintro ⟨hres, herr⟩
    have hfail := hf.1.mp herr
    exact hres (hf.2.2.1 hfail).1
  · intro hfail
    rcases hf.2.2.1 hfail with ⟨hres, herr⟩
    right
    refine ⟨hres, ?_⟩
    intro he
    rw [he] at herr
    simp at herr

/-- Witness for the amended C3 at the concrete completed record of a
reachable run. -/
theorem outcome_fields_consistent_witness :
    Reachable wq3 ∧ lookupTask wq3.tasks 0 = some wRec3 ∧
    ((wRec3.error.isSome = true ↔ wRec3.status = TaskStatus.failed) ∧
      (wRec3.result ≠ PyValue.none → wRec3.status = TaskStatus.completed) ∧
      ¬(wRec3.result ≠ PyValue.none ∧ wRec3.error.isSome = true) ∧
      (wRec3.status = TaskStatus.failed → exactlyOneOutcome wRec3)) :=
  ⟨wq3_reachable, rfl, outcome_fields_consistent wq3 0 wRec3 wq3_reachable rfl⟩

/-- C4 counterexample: `list_tasks` collects the stored dict objects
themselves (`list(self._tasks.values())` copies the list, not the
records), so the returned list aliases the store: mutating the record
reached through the returned list changes the record the store holds for
id 0, contradicting the claim that mutating a returned record does not
change the stored one. -/
theorem list_tasks_returns_aliases :
    listTasksRefs cexHeap cexRefStore none = [0] ∧
    lookupRef cexRefStore 0 = some 0 ∧
    heapRead (heapWrite cexHeap 0 cexMut) 0 = cexMut ∧
    cexMut ≠ heapRead cexHeap 0 := by
  refine ⟨rfl, rfl, rfl, by decide⟩

/-- C4 amended: `list_tasks` returns a new list whose elements are the
store's record objects themselves (restricted by the status filter when
one is supplied), not copies: the object the store maps an id to appears
in the returned list, and an in-place mutation through that object is
visible in the store. -/
theorem list_tasks_returns_store_references (h : List Task)
    (rs : List (Nat × Nat)) (i a : Nat) (u : Task) (f : TaskStatus)
    (hl : lookupRef rs i = some a) (ha : a < h.length) :
    a ∈ listTasksRefs h rs none ∧
    ((heapRead h a).status = f → a ∈ listTasksRefs h rs (some f)) ∧
    heapRead (heapWrite h a u) a = u := by
  have hmem := lookupRef_mem rs i a hl
  refine ⟨hmem, ?_, heapRead_heapWrite_self h a u ha⟩
  intro hstt
  show a ∈ List.filter _ (List.map (fun p => p.2) rs)
  exact List.mem_filter.mpr ⟨hmem, by simp [hstt]⟩

/-- Witness for the amended C4 on a concrete heap and store. -/
theorem list_tasks_returns_store_references_witness :
    lookupRef cexRefStore 0 = some 0 ∧ 0 < cexHeap.length ∧
    (0 ∈ listTasksRefs cexHeap cexRefStore none ∧
      ((heapRead cexHeap 0).status = TaskStatus.pending →
        0 ∈ listTasksRefs cexHeap cexRefStore (some TaskStatus.pending)) ∧
      heapRead (heapWrite cexHeap 0 cexMut) 0 = cexMut) :=
  ⟨rfl, by decide, list_tasks_returns_store_references cexHeap cexRefStore 0 0
    cexMut TaskStatus.pending rfl (by decide)⟩

/-- C6: on every store with unique keys, `clear_completed` keeps a record
iff it is not removal-due (Completed or Failed with `completed_at` more
than `max_age_seconds` older than now); in particular every Pending and
Running record is kept regardless of age; and the returned count is the
number of records meeting the removal condition. -/
theorem clear_completed_spec (s : TaskStore) (maxAge : Int) (now : Nat)
    (p : Nat × Task) (hnd : (storeKeys s).Nodup) :
    (p ∈ (clearCompleted s maxAge now).1 ↔
      p ∈ s ∧ ¬ RemovalDue maxAge now p.2) ∧
    ((p.2.status = TaskStatus.pending ∨ p.2.status = TaskStatus.running) →
      (p ∈ (clearCompleted s maxAge now).1 ↔ p ∈ s)) ∧
    (clearCompleted s maxAge now).2 =
      (List.filter (fun r => shouldRemove maxAge now r.2) s).length := by
  have hfil := clearCompleted_fst_eq_filter s maxAge now hnd
  have hmain : p ∈ (clearCompleted s maxAge now).1 ↔
      p ∈ s ∧ ¬ RemovalDue maxAge now p.2 := by
    rw [hfil, List.mem_filter]
    constructor
    · rintro ⟨h1, h2⟩
      refine ⟨h1, ?_⟩
      intro hdue
      rw [← shouldRemove_iff maxAge now p.2] at hdue
      rw [hdue] at h2
      exact Bool.noConfusion h2
    · rintro ⟨h1, h2⟩
      refine ⟨h1, ?_⟩
      cases hsr : shouldRemove maxAge now p.2 with
      | false => rfl
      | true => exact absurd ((shouldRemove_iff _ _ _).mp hsr) h2
  refine ⟨hmain, ?_, clearCompleted_snd_eq s maxAge now⟩
  intro hpr
  rw [hmain]
  constructor
  · exact fun hh => hh.1
  · intro hp
    refine ⟨hp, ?_⟩
    rintro ⟨hterm, _⟩
    rcases hpr with hh | hh <;> rcases hterm with h2 | h2 <;> rw [hh] at h2 <;>
      exact TaskStatus.noConfusion h2

/-- Witness for C6: cleanup at age 60 of a store holding records completed
100 and 10 seconds ago and a running record; instantiated at the running
record, which is kept. -/
theorem clear_completed_spec_witness :
    (storeKeys wStoreClean).Nodup ∧
    (((2, wRunRec) ∈ (clearCompleted wStoreClean 60 100).1 ↔
        (2, wRunRec) ∈ wStoreClean ∧ ¬ RemovalDue 60 100 wRunRec) ∧
      ((wRunRec.status = TaskStatus.pending ∨ wRunRec.status = TaskStatus.running) →
        ((2, wRunRec) ∈ (clearCompleted wStoreClean 60 100).1 ↔
          (2, wRunRec) ∈ wStoreClean)) ∧
      (clearCompleted wStoreClean 60 100).2 =
        (List.filter (fun r => shouldRemove 60 100 r.2) wStoreClean).length) :=
  ⟨by decide, clear_completed_spec wStoreClean 60 100 (2, wRunRec) (by decide)⟩

/-- C7: `get_task_status` raises `TaskNotFoundError` (built from the id
alone, so a garbage-collected and a never-issued identifier are reported
identically) iff the identifier is absent from the store, and otherwise
returns a copy of the current record: same content, freshly allocated
object. -/
theorem get_task_status_spec (s s2 : TaskStore) (h : List Task)
    (rs : List (Nat × Nat)) (i a : Nat)
    (hvalid : ∀ b ∈ List.map (fun p => p.2) rs, b < h.length) :
    getStatusOK s i ∧
    (lookupTask s i = none → lookupTask s2 i = none →
      getTaskStatus s i = getTaskStatus s2 i) ∧
    (lookupRef rs i = some a →
      getTaskStatusRef h rs i =
        Except.ok (List.append h [heapRead h a], h.length) ∧
      h.length ∉ List.map (fun p => p.2) rs) := by
  refine ⟨?_, ?_, ?_⟩
  · unfold getStatusOK
    cases hl : lookupTask s i with
    | none =>
        have hts : getTaskStatus s i = Except.error (QueueError.taskNotFound i) := by
          unfold getTaskStatus
          rw [hl]
        rw [hts]
    | some t =>
        have hts : getTaskStatus s i = Except.ok t := by
          unfold getTaskStatus
          rw [hl]
        rw [hts]
  · intro h1 h2
    unfold getTaskStatus
    rw [h1, h2]
  · intro hla
    constructor
    · unfold getTaskStatusRef
      rw [hla]
    · intro hmemL
      exact Nat.lt_irrefl _ (hvalid _ hmemL)

/-- Witness for C7 on a concrete store, heap and reference store. -/
theorem get_task_status_spec_witness :
    getStatusOK exStore1 0 ∧
    getTaskStatusRef cexHeap cexRefStore 0 =
      Except.ok (List.append cexHeap [heapRead cexHeap 0], cexHeap.length) ∧
    cexHeap.length ∉ List.map (fun p => p.2) cexRefStore :=
  ⟨(get_task_status_spec exStore1 [] cexHeap cexRefStore 0 0 (by decide)).1,
    ((get_task_status_spec exStore1 [] cexHeap cexRefStore 0 0 (by decide)).2.2 rfl).1,
    ((get_task_status_spec exStore1 [] cexHeap cexRefStore 0 0 (by decide)).2.2 rfl).2⟩

end QueueSpec
